import Mathlib

/-!
Verification of the Luton–Sellars hot-flow-stress notebook
(`LutonSellarsHotFlowStressModelling.ipynb`).

The notebook's numeric code (Python floats) is modelled over the real
numbers.  Pure functions (`ludwik`, `avrami`, `avrami_increment`) become
Lean functions; the mutable `Portion` objects become an immutable record
that the step function rewrites; the `while` loop of `luton_sellars_solve`
becomes a fuel-indexed recursion (`solveLoop`), so that termination is a
theorem rather than an assumption.  The module-level constants
`strain_critical`, `strain_step`, `strain_max` that the Python closes over
become explicit arguments of the solver, with the notebook's literal values
kept as named constants.
-/

namespace LutonSellars

noncomputable section

/-- `ludvig_k0 = 100  # base flow stress` -/
def ludvig_k0 : ℝ := 100

/-- `ludvig_n = 0.2  # exponent` -/
def ludvig_n : ℝ := 0.2

/-- `def ludwik(strain): return ludvig_k0 * (strain + 0.01) ** ludvig_n`.
The Python float power with real exponent is modelled by `Real.rpow`. -/
def ludwik (strain : ℝ) : ℝ := ludvig_k0 * (strain + 0.01) ^ ludvig_n

/-- `avrami_k = 0.2  # time constant` -/
def avrami_k : ℝ := 0.2

/-- `avrami_n = 2  # exponent` (a Python int used as power). -/
def avrami_n : ℕ := 2

/-- `def avrami(time): return 1 - np.exp(-avrami_k * time**avrami_n)` -/
def avrami (time : ℝ) : ℝ := 1 - Real.exp (-avrami_k * time ^ avrami_n)

/-- `def avrami_increment(time, increment): return avrami(time + increment) - avrami(time)` -/
def avrami_increment (time increment : ℝ) : ℝ := avrami (time + increment) - avrami time

/-- The `Portion` class: a portion of material that has experienced an
equal deformation.  `__init__(self, portion)` sets `start_time = -1`
(the "unset" sentinel), `portion = start_portion = portion`, `strain = 0`. -/
structure Portion where
  start_time : ℝ
  portion : ℝ
  start_portion : ℝ
  strain : ℝ

/-- `Portion.__init__`: fresh portion with the sentinel start time. -/
def Portion.create (portion : ℝ) : Portion :=
  { start_time := -1, portion := portion, start_portion := portion, strain := 0 }

/-- `Portion.flow_stress(self): return ludwik(self.strain)` -/
def Portion.flow_stress (p : Portion) : ℝ := ludwik p.strain

/-- The mutable local state of `luton_sellars_solve`: the scalars `strain`
and `t`, the growing list `portions`, and the accumulated `results` rows
`(t, strain, flow_stress)`. -/
structure SolveState where
  strain : ℝ
  t : ℝ
  portions : List Portion
  results : List (ℝ × ℝ × ℝ)

/-- The body of the `for p in portions` loop, acting on one portion `p` at
driver time `t`: if `p.strain >= strain_critical`, set `p.start_time = t`
when it is still the sentinel, subtract
`avrami_increment(t - p.start_time, time_step) * p.start_portion` from
`p.portion`, and always add `strain_step` to `p.strain`.  Returns the
updated portion together with the recrystallized amount this portion
contributed to the step-local `new_portion` accumulator (0 when the
portion is not yet critical). -/
def portionUpdate (strain_critical strain_step time_step t : ℝ) (p : Portion) :
    Portion × ℝ :=
  if p.strain ≥ strain_critical then
    let st := if p.start_time < 0 then t else p.start_time
    let amt := avrami_increment (t - st) time_step * p.start_portion
    (⟨st, p.portion - amt, p.start_portion, p.strain + strain_step⟩, amt)
  else
    (⟨p.start_time, p.portion, p.start_portion, p.strain + strain_step⟩, 0)

/-- The portion list after the `for p in portions` loop.  Each portion's
update depends only on its own fields and the driver time, so the single
Python pass splits into a map (the updated portions) and a sum (the
accumulated `new_portion`). -/
def updatedPortions (strain_critical strain_step time_step t : ℝ)
    (ps : List Portion) : List Portion :=
  ps.map fun p => (portionUpdate strain_critical strain_step time_step t p).1

/-- The step-local `new_portion` accumulator after the `for p in portions`
loop: the sum of the recrystallized amounts of all portions. -/
def newPortionAmount (strain_critical strain_step time_step t : ℝ)
    (ps : List Portion) : ℝ :=
  (ps.map fun p => (portionUpdate strain_critical strain_step time_step t p).2).sum

/-- `sum((p.portion * p.flow_stress() for p in portions))`. -/
def aggregateFlowStress (ps : List Portion) : ℝ :=
  (ps.map fun p => p.portion * p.flow_stress).sum

/-- One iteration of the `while strain < strain_max` body of
`luton_sellars_solve`: update every portion (collecting `new_portion`),
append a fresh portion when `new_portion > 0`, advance `strain` and `t`,
and append the row `(t, strain, aggregate flow stress)` to `results`. -/
def solveStep (strain_critical strain_step time_step : ℝ) (s : SolveState) :
    SolveState :=
  let ports := updatedPortions strain_critical strain_step time_step s.t s.portions
  let new_portion := newPortionAmount strain_critical strain_step time_step s.t s.portions
  let ports2 := if 0 < new_portion then ports ++ [Portion.create new_portion] else ports
  { strain := s.strain + strain_step
    t := s.t + time_step
    portions := ports2
    results := s.results ++ [(s.t + time_step, s.strain + strain_step,
      aggregateFlowStress ports2)] }

/-- The `while strain < strain_max:` loop as a fuel-indexed recursion: with
enough fuel this is exactly the Python loop (the fuel is never the reason
it stops); running out of fuel returns the state reached so far. -/
def solveLoop (strain_critical strain_step strain_max time_step : ℝ) :
    ℕ → SolveState → SolveState
  | 0, s => s
  | fuel + 1, s =>
    if s.strain < strain_max then
      solveLoop strain_critical strain_step strain_max time_step fuel
        (solveStep strain_critical strain_step time_step s)
    else s

/-- The local state at the top of `luton_sellars_solve`:
`strain = 0`, `t = 0`, `portions = [Portion(1)]`, `results = []`. -/
def initState : SolveState :=
  { strain := 0, t := 0, portions := [Portion.create 1], results := [] }

/-- `luton_sellars_solve(rate)` with the module-level constants
`strain_critical`, `strain_step`, `strain_max` made explicit arguments:
`time_step = strain_step / rate`, then the while loop from `initState`.
Returns the full final state; the Python function returns its `results`
rows as a DataFrame.  Caveat: Lean's total real division makes
`strain_step / 0 = 0`, whereas Python raises `ZeroDivisionError` here
before the loop; that error path is modelled by `luton_sellars_solveE`
below, so theorems about the `rate = 0` behaviour must be stated through
`luton_sellars_solveE`, and theorems using this plain function assume
`rate ≠ 0` (or a sign of `rate`). -/
def luton_sellars_solve (strain_critical strain_step strain_max rate : ℝ)
    (fuel : ℕ) : SolveState :=
  solveLoop strain_critical strain_step strain_max (strain_step / rate) fuel initState

/-- `strain_critical = 0.5  # critical strain of recrystallisation` -/
def strain_critical : ℝ := 0.5

/-- `strain_step = 0.02  # numerical step width of deformation` -/
def strain_step : ℝ := 0.02

/-- `strain_max = 4  # maximum deformation (end of calculation)` -/
def strain_max : ℝ := 4

/-- `rates = [0.1, 0.2, 0.5, 1.0]` -/
def rates : List ℝ := [0.1, 0.2, 0.5, 1.0]

/-- The sum of `Portion.portion` (the `volume_share`) over a state's
portions. -/
def volumeSum (s : SolveState) : ℝ := (s.portions.map Portion.portion).sum

/-- The iterated step function: the driver state after `k` executed
iterations of the loop body (ignoring the loop guard, which the bridge
lemmas below relate to the fuelled loop). -/
def stepsN (strain_critical strain_step time_step : ℝ) (k : ℕ) : SolveState :=
  (solveStep strain_critical strain_step time_step)^[k] initState

/-- The portion at index `i` of a state (a harmless default for an index
out of range). -/
def pget (s : SolveState) (i : ℕ) : Portion := s.portions.getD i (Portion.create 0)

/-- Number of portions of a state. -/
def nPortions (s : SolveState) : ℕ := s.portions.length

/-- Number of loop iterations the claims predict: `⌈strain_max / strain_step⌉`. -/
def numSteps (strain_step strain_max : ℝ) : ℕ := ⌈strain_max / strain_step⌉.toNat

/-- Invariant of one portion at driver time `t`: its frozen initial share
is positive; while `start_time` is still the `-1` sentinel the share is
untouched; once `start_time` is set it is a past driver time, the portion
is critical, and its share carries the telescoped Avrami losses
`start_portion * (1 - avrami (t - start_time))`. -/
def PortionInv (c t : ℝ) (p : Portion) : Prop :=
  0 < p.start_portion
    ∧ (p.start_time < 0 → p.portion = p.start_portion)
    ∧ (0 ≤ p.start_time →
        p.start_time ≤ t ∧ c ≤ p.strain
          ∧ p.portion = p.start_portion * (1 - avrami (t - p.start_time)))

/-- Invariant of a driver state: nonnegative elapsed time and the portion
invariant for every portion. -/
def StateInv (c : ℝ) (s : SolveState) : Prop :=
  0 ≤ s.t ∧ ∀ p ∈ s.portions, PortionInv c s.t p

/-- `luton_sellars_solve` with Python's failure mode made explicit: the
only statement that can raise before or during the loop is
`time_step = strain_step / rate`, which raises `ZeroDivisionError` exactly
when `rate` is zero (real division has no exception, so the zero test is
explicit here). -/
def luton_sellars_solveE (c ss smax rate : ℝ) (fuel : ℕ) :
    Except String SolveState :=
  if rate = 0 then Except.error "ZeroDivisionError"
  else Except.ok (luton_sellars_solve c ss smax rate fuel)

/-- The orchestrator cell
`pd.concat([luton_sellars_solve(rate) for rate in rates], keys=rates)`:
the comprehension evaluates the runs left to right, pairing each rate with
its run; an exception in any run propagates out of the whole cell, so no
partial result set survives a failure. -/
def runAllRates (c ss smax : ℝ) (fuel : ℕ) :
    List ℝ → Except String (List (ℝ × SolveState))
  | [] => Except.ok []
  | r :: rs =>
    match luton_sellars_solveE c ss smax r fuel with
    | Except.error e => Except.error e
    | Except.ok s =>
      match runAllRates c ss smax fuel rs with
      | Except.error e => Except.error e
      | Except.ok l => Except.ok ((r, s) :: l)

/-- `start_time` of portion `i` after `k` executed steps. -/
def onsetAt (c ss dt : ℝ) (k i : ℕ) : ℝ := (pget (stepsN c ss dt k) i).start_time

/-- `strain` of portion `i` after `k` executed steps. -/
def strainAt (c ss dt : ℝ) (k i : ℕ) : ℝ := (pget (stepsN c ss dt k) i).strain

/-- Driver elapsed time after `k` executed steps. -/
def timeAt (c ss dt : ℝ) (k : ℕ) : ℝ := (stepsN c ss dt k).t

/-- Number of portions after `k` executed steps. -/
def countAt (c ss dt : ℝ) (k : ℕ) : ℕ := (stepsN c ss dt k).portions.length

/-- The elapsed time of the first result row whose `strain` column has
reached `v` (the time at which a run reaches a given accumulated
strain). -/
def reachTime (res : List (ℝ × ℝ × ℝ)) (v : ℝ) : Option ℝ :=
  (res.find? fun row => decide (v ≤ row.2.1)).map fun row => row.1

/-! ### Basic facts about one step -/

theorem solveStep_strain (c ss dt : ℝ) (s : SolveState) :
    (solveStep c ss dt s).strain = s.strain + ss := rfl

theorem solveStep_t (c ss dt : ℝ) (s : SolveState) :
    (solveStep c ss dt s).t = s.t + dt := rfl

theorem solveStep_results (c ss dt : ℝ) (s : SolveState) :
    (solveStep c ss dt s).results =
      s.results ++ [(s.t + dt, s.strain + ss,
        aggregateFlowStress (solveStep c ss dt s).portions)] := rfl

theorem solveStep_portions (c ss dt : ℝ) (s : SolveState) :
    (solveStep c ss dt s).portions =
      if 0 < newPortionAmount c ss dt s.t s.portions then
        updatedPortions c ss dt s.t s.portions
          ++ [Portion.create (newPortionAmount c ss dt s.t s.portions)]
      else updatedPortions c ss dt s.t s.portions := rfl

theorem updatedPortions_length (c ss dt t : ℝ) (ps : List Portion) :
    (updatedPortions c ss dt t ps).length = ps.length := by
  simp [updatedPortions]

theorem solveStep_portions_length (c ss dt : ℝ) (s : SolveState) :
    s.portions.length ≤ (solveStep c ss dt s).portions.length := by
  rw [solveStep_portions]
  split <;> simp [updatedPortions]

/-- For an index below the current portion count, the portion after one
step is the `portionUpdate` of the portion before it (the possible fresh
portion is appended strictly after the existing ones). -/
theorem solveStep_pget (c ss dt : ℝ) (s : SolveState) (i : ℕ)
    (hi : i < s.portions.length) :
    pget (solveStep c ss dt s) i = (portionUpdate c ss dt s.t (pget s i)).1 := by
  have hlt : i < (updatedPortions c ss dt s.t s.portions).length := by
    rwa [updatedPortions_length]
  have h2 : pget s i = s.portions[i] := List.getD_eq_getElem _ _ hi
  have hmap : (updatedPortions c ss dt s.t s.portions).getD i (Portion.create 0)
      = (portionUpdate c ss dt s.t (pget s i)).1 := by
    rw [List.getD_eq_getElem _ _ hlt, h2]
    simp [updatedPortions]
  simp only [pget, solveStep_portions]
  split
  · rw [List.getD_append _ _ _ _ hlt, hmap]; rfl
  · exact hmap

/-! ### Closed forms along the iterated step -/

theorem stepsN_zero (c ss dt : ℝ) : stepsN c ss dt 0 = initState := rfl

theorem stepsN_succ (c ss dt : ℝ) (k : ℕ) :
    stepsN c ss dt (k + 1) = solveStep c ss dt (stepsN c ss dt k) := by
  simp [stepsN, Function.iterate_succ_apply']

theorem stepsN_strain (c ss dt : ℝ) (k : ℕ) :
    (stepsN c ss dt k).strain = k * ss := by
  induction k with
  | zero => simp [stepsN, initState]
  | succ k ih =>
    rw [stepsN_succ, solveStep_strain, ih]
    push_cast
    ring

theorem stepsN_t (c ss dt : ℝ) (k : ℕ) :
    (stepsN c ss dt k).t = k * dt := by
  induction k with
  | zero => simp [stepsN, initState]
  | succ k ih =>
    rw [stepsN_succ, solveStep_t, ih]
    push_cast [Nat.cast_succ]
    ring

theorem stepsN_results (c ss dt : ℝ) (k : ℕ) :
    (stepsN c ss dt k).results =
      (List.range k).map fun j =>
        ((j + 1 : ℕ) * dt, (j + 1 : ℕ) * ss,
          aggregateFlowStress (stepsN c ss dt (j + 1)).portions) := by
  induction k with
  | zero => simp [stepsN, initState]
  | succ k ih =>
    rw [stepsN_succ, solveStep_results, ih, List.range_succ, List.map_append,
      ← stepsN_succ]
    simp [stepsN_strain, stepsN_t]
    constructor <;> ring

theorem stepsN_results_length (c ss dt : ℝ) (k : ℕ) :
    (stepsN c ss dt k).results.length = k := by
  rw [stepsN_results]
  simp

theorem stepsN_nPortions_mono (c ss dt : ℝ) {k m : ℕ} (h : k ≤ m) :
    (stepsN c ss dt k).portions.length ≤ (stepsN c ss dt m).portions.length := by
  induction m with
  | zero => simp_all
  | succ m ih =>
    rcases Nat.lt_or_ge k (m + 1) with hk | hk
    · exact le_trans (ih (Nat.lt_succ_iff.mp hk))
        (by rw [stepsN_succ]; exact solveStep_portions_length ..)
    · have : k = m + 1 := le_antisymm h hk
      simp [this]

/-! ### The while loop: termination bridge -/

/-- With `0 < strain_step`, the number of iterations of the while loop from
`initState` is exactly `numSteps`: fuel `f ≥ numSteps` yields the
`numSteps`-fold iterate of the loop body.  Stated for an arbitrary start
index `j` of the iterate to make the induction go through. -/
theorem solveLoop_eq_stepsN_aux (c ss smax dt : ℝ) (hss : 0 < ss) :
    ∀ (f j : ℕ), j ≤ numSteps ss smax → numSteps ss smax ≤ j + f →
      solveLoop c ss smax dt f (stepsN c ss dt j) = stepsN c ss dt (numSteps ss smax) := by
  intro f
  induction f with
  | zero =>
    intro j hj hj'
    have : j = numSteps ss smax := le_antisymm hj (by simpa using hj')
    simp [solveLoop, this]
  | succ f ih =>
    intro j hj hj'
    rw [solveLoop]
    by_cases hcond : (stepsN c ss dt j).strain < smax
    · rw [if_pos hcond, ← stepsN_succ]
      have hjlt : j < numSteps ss smax := by
        rw [stepsN_strain] at hcond
        have hdiv : (j : ℝ) < smax / ss := (lt_div_iff₀ hss).mpr hcond
        have hjc : (j : ℤ) < ⌈smax / ss⌉ := Int.lt_ceil.mpr (by exact_mod_cast hdiv)
        have : numSteps ss smax = ⌈smax / ss⌉.toNat := rfl
        omega
      exact ih (j + 1) hjlt (by omega)
    · rw [if_neg hcond]
      have hge : numSteps ss smax ≤ j := by
        rw [stepsN_strain] at hcond
        have hdiv : smax / ss ≤ (j : ℝ) := (div_le_iff₀ hss).mpr (by linarith [not_lt.mp hcond])
        have : ⌈smax / ss⌉ ≤ (j : ℤ) := Int.ceil_le.mpr (by exact_mod_cast hdiv)
        calc numSteps ss smax = ⌈smax / ss⌉.toNat := rfl
          _ ≤ j := by omega
      have : j = numSteps ss smax := le_antisymm hj hge
      rw [this]

/-! ### Facts about the predicted iteration count -/

theorem numSteps_pos {ss smax : ℝ} (hss : 0 < ss) (hsm : 0 < smax) :
    0 < numSteps ss smax := by
  have h : (0 : ℝ) < smax / ss := div_pos hsm hss
  have hc : (0 : ℤ) < ⌈smax / ss⌉ := Int.ceil_pos.mpr h
  have : numSteps ss smax = ⌈smax / ss⌉.toNat := rfl
  omega

theorem strain_lt_of_lt_numSteps {ss smax : ℝ} (hss : 0 < ss) {k : ℕ}
    (hk : k < numSteps ss smax) : (k : ℝ) * ss < smax := by
  have hkc : (k : ℤ) < ⌈smax / ss⌉ := by
    have : numSteps ss smax = ⌈smax / ss⌉.toNat := rfl
    omega
  have : (k : ℝ) < smax / ss := by exact_mod_cast Int.lt_ceil.mp hkc
  exact (lt_div_iff₀ hss).mp this

theorem numSteps_strain_ge {ss smax : ℝ} (hss : 0 < ss) (hsm : 0 < smax) :
    smax ≤ (numSteps ss smax : ℝ) * ss := by
  have h1 : smax / ss ≤ (⌈smax / ss⌉ : ℝ) := Int.le_ceil _
  have h2 : (0 : ℤ) < ⌈smax / ss⌉ := Int.ceil_pos.mpr (div_pos hsm hss)
  have h3 : ((numSteps ss smax : ℤ) : ℝ) = ((⌈smax / ss⌉ : ℤ) : ℝ) := by
    have : (numSteps ss smax : ℤ) = ⌈smax / ss⌉ := by
      have : numSteps ss smax = ⌈smax / ss⌉.toNat := rfl
      omega
    rw [this]
  have h4 : smax / ss ≤ (numSteps ss smax : ℝ) := by
    rw [show ((numSteps ss smax : ℕ) : ℝ) = ((numSteps ss smax : ℤ) : ℝ) by push_cast; ring,
      h3]
    exact h1
  exact (div_le_iff₀ hss).mp h4

theorem solveLoop_eq_stepsN (c ss smax rate : ℝ) (hss : 0 < ss) (fuel : ℕ)
    (hf : numSteps ss smax ≤ fuel) :
    luton_sellars_solve c ss smax rate fuel
      = stepsN c ss (ss / rate) (numSteps ss smax) := by
  have h0 : stepsN c ss (ss / rate) 0 = initState := rfl
  have h := solveLoop_eq_stepsN_aux c ss smax (ss / rate) hss fuel 0
    (Nat.zero_le _) (by omega)
  rw [h0] at h
  exact h

/-- The notebook's concrete parameters give exactly 200 loop iterations. -/
theorem numSteps_concrete : numSteps strain_step strain_max = 200 := by
  norm_num [numSteps, strain_step, strain_max]
  rfl

/-- With non-positive `strain_step` and positive `strain_max` the loop guard
never turns false, so the loop consumes all its fuel: the Python `while`
loop does not terminate. -/
theorem solveLoop_exhausts_fuel (c ss smax dt : ℝ) (hss : ss ≤ 0) (hsm : 0 < smax) :
    ∀ (f j : ℕ), solveLoop c ss smax dt f (stepsN c ss dt j) = stepsN c ss dt (j + f) := by
  intro f
  induction f with
  | zero => intro j; rfl
  | succ f ih =>
    intro j
    have hcond : (stepsN c ss dt j).strain < smax := by
      rw [stepsN_strain]
      nlinarith [Nat.cast_nonneg (α := ℝ) j]
    rw [solveLoop, if_pos hcond, ← stepsN_succ, ih (j + 1)]
    congr 1
    omega

/-! ### Properties of the constitutive laws -/

theorem avrami_eq (t : ℝ) : avrami t = 1 - Real.exp (-avrami_k * t ^ avrami_n) := rfl

theorem avrami_zero : avrami 0 = 0 := by
  rw [avrami_eq]
  norm_num [avrami_n, avrami_k]

theorem avrami_lt_one (t : ℝ) : avrami t < 1 := by
  rw [avrami_eq]
  have := Real.exp_pos (-avrami_k * t ^ avrami_n)
  linarith

theorem avrami_nonneg (t : ℝ) : 0 ≤ avrami t := by
  rw [avrami_eq]
  have h : Real.exp (-avrami_k * t ^ avrami_n) ≤ 1 := by
    rw [Real.exp_le_one_iff]
    have h2 : (0 : ℝ) ≤ t ^ avrami_n := by
      rw [show avrami_n = 2 from rfl]
      exact sq_nonneg t
    rw [show avrami_k = (0.2 : ℝ) from rfl]
    nlinarith
  linarith

theorem avrami_le_avrami {a b : ℝ} (ha : 0 ≤ a) (hab : a ≤ b) :
    avrami a ≤ avrami b := by
  rw [avrami_eq, avrami_eq]
  have hpow : a ^ avrami_n ≤ b ^ avrami_n := pow_le_pow_left₀ ha hab _
  have : Real.exp (-avrami_k * b ^ avrami_n) ≤ Real.exp (-avrami_k * a ^ avrami_n) := by
    rw [Real.exp_le_exp]
    rw [show avrami_k = (0.2 : ℝ) from rfl]
    nlinarith
  linarith

theorem avrami_lt_avrami {a b : ℝ} (ha : 0 ≤ a) (hab : a < b) :
    avrami a < avrami b := by
  rw [avrami_eq, avrami_eq]
  have hpow : a ^ avrami_n < b ^ avrami_n :=
    pow_lt_pow_left₀ hab ha (by norm_num [avrami_n])
  have : Real.exp (-avrami_k * b ^ avrami_n) < Real.exp (-avrami_k * a ^ avrami_n) := by
    rw [Real.exp_lt_exp]
    rw [show avrami_k = (0.2 : ℝ) from rfl]
    nlinarith
  linarith

theorem avrami_pos {t : ℝ} (ht : 0 < t) : 0 < avrami t := by
  have := avrami_lt_avrami (le_refl 0) ht
  rwa [avrami_zero] at this

theorem avrami_tendsto_one :
    Filter.Tendsto avrami Filter.atTop (nhds 1) := by
  have h1 : Filter.Tendsto (fun t : ℝ => t ^ avrami_n) Filter.atTop Filter.atTop :=
    Filter.tendsto_pow_atTop (by norm_num [avrami_n])
  have h2 : Filter.Tendsto (fun t : ℝ => -avrami_k * t ^ avrami_n)
      Filter.atTop Filter.atBot :=
    h1.const_mul_atTop_of_neg (by norm_num [avrami_k])
  have h3 : Filter.Tendsto (fun t : ℝ => Real.exp (-avrami_k * t ^ avrami_n))
      Filter.atTop (nhds 0) := Real.tendsto_exp_atBot.comp h2
  have h4 := Filter.Tendsto.const_sub (1 : ℝ) h3
  rw [sub_zero] at h4
  have hfun : avrami = fun t : ℝ => 1 - Real.exp (-avrami_k * t ^ avrami_n) := rfl
  rw [hfun]
  exact h4

theorem ludwik_eq (s : ℝ) : ludwik s = 100 * (s + 0.01) ^ (0.2 : ℝ) := rfl

theorem ludwik_pos {s : ℝ} (hs : 0 ≤ s) : 0 < ludwik s := by
  rw [ludwik_eq]
  have : (0 : ℝ) < (s + 0.01) ^ (0.2 : ℝ) :=
    Real.rpow_pos_of_pos (by linarith) _
  linarith

theorem ludwik_le_ludwik {a b : ℝ} (ha : 0 ≤ a) (hab : a ≤ b) :
    ludwik a ≤ ludwik b := by
  rw [ludwik_eq, ludwik_eq]
  have : (a + 0.01) ^ (0.2 : ℝ) ≤ (b + 0.01) ^ (0.2 : ℝ) :=
    Real.rpow_le_rpow (by linarith) (by linarith) (by norm_num)
  linarith

theorem ludwik_lt_ludwik {a b : ℝ} (ha : 0 ≤ a) (hab : a < b) :
    ludwik a < ludwik b := by
  rw [ludwik_eq, ludwik_eq]
  have : (a + 0.01) ^ (0.2 : ℝ) < (b + 0.01) ^ (0.2 : ℝ) :=
    Real.rpow_lt_rpow (by linarith) (by linarith) (by norm_num)
  linarith

/-! ### C7: the Avrami law -/

/-- **C7.** With the notebook's transformation parameters `k = 0.2 > 0` and
`n = 2 > 0`: `avrami 0 = 0`; for every `time ≥ 0` the transformed fraction
lies in `[0, 1)`; `avrami` is strictly monotone on `[0, ∞)`; it tends to 1
at infinity; and `avrami_increment time Δ = avrami (time + Δ) − avrami time`
definitionally. -/
theorem avrami_law_properties :
    (0 < avrami_k ∧ 0 < avrami_n)
      ∧ avrami 0 = 0
      ∧ (∀ t : ℝ, 0 ≤ t → 0 ≤ avrami t ∧ avrami t < 1)
      ∧ StrictMonoOn avrami (Set.Ici 0)
      ∧ Filter.Tendsto avrami Filter.atTop (nhds 1)
      ∧ (∀ t d : ℝ, avrami_increment t d = avrami (t + d) - avrami t) := by
  refine ⟨⟨by norm_num [avrami_k], by norm_num [avrami_n]⟩, avrami_zero, ?_, ?_, ?_, ?_⟩
  · intro t _
    exact ⟨avrami_nonneg t, avrami_lt_one t⟩
  · intro a ha b _ hab
    exact avrami_lt_avrami ha hab
  · exact avrami_tendsto_one
  · intro t d
    rfl

/-! ### The state invariant of a run -/

theorem portionUpdate_of_crit_unset {c ss dt t : ℝ} {p : Portion}
    (hcrit : p.strain ≥ c) (hst : p.start_time < 0) :
    portionUpdate c ss dt t p =
      (⟨t, p.portion - avrami_increment 0 dt * p.start_portion, p.start_portion,
        p.strain + ss⟩, avrami_increment 0 dt * p.start_portion) := by
  rw [portionUpdate, if_pos hcrit]
  simp only [if_pos hst, sub_self]

theorem portionUpdate_of_crit_set {c ss dt t : ℝ} {p : Portion}
    (hcrit : p.strain ≥ c) (hst : ¬ p.start_time < 0) :
    portionUpdate c ss dt t p =
      (⟨p.start_time,
        p.portion - avrami_increment (t - p.start_time) dt * p.start_portion,
        p.start_portion, p.strain + ss⟩,
       avrami_increment (t - p.start_time) dt * p.start_portion) := by
  rw [portionUpdate, if_pos hcrit]
  simp only [if_neg hst]

theorem portionUpdate_of_not_crit {c ss dt t : ℝ} {p : Portion}
    (hcrit : ¬ p.strain ≥ c) :
    portionUpdate c ss dt t p
      = (⟨p.start_time, p.portion, p.start_portion, p.strain + ss⟩, 0) := by
  rw [portionUpdate, if_neg hcrit]

theorem portionUpdate_preserves_inv {c ss dt t : ℝ} (hss : 0 ≤ ss) (hdt : 0 ≤ dt)
    (ht : 0 ≤ t) {p : Portion} (hp : PortionInv c t p) :
    PortionInv c (t + dt) (portionUpdate c ss dt t p).1 := by
  obtain ⟨hsp, hunset, hset⟩ := hp
  by_cases hcrit : p.strain ≥ c
  · by_cases hst : p.start_time < 0
    · rw [portionUpdate_of_crit_unset hcrit hst]
      refine ⟨hsp, by intro habs; dsimp only at habs; linarith, ?_⟩
      intro _
      dsimp only
      refine ⟨by linarith, by linarith, ?_⟩
      rw [hunset hst, avrami_increment, zero_add, avrami_zero,
        show t + dt - t = dt by ring]
      ring
    · obtain ⟨hle, hcs, hval⟩ := hset (not_lt.mp hst)
      rw [portionUpdate_of_crit_set hcrit hst]
      refine ⟨hsp, by intro habs; dsimp only at habs; exact absurd habs hst, ?_⟩
      intro _
      dsimp only
      refine ⟨by linarith, by linarith, ?_⟩
      rw [hval, avrami_increment,
        show t + dt - p.start_time = t - p.start_time + dt by ring]
      ring
  · rw [portionUpdate_of_not_crit hcrit]
    refine ⟨hsp, fun h => hunset h, ?_⟩
    intro hst
    obtain ⟨hle, hcs, hval⟩ := hset hst
    exact absurd hcs hcrit

theorem portionUpdate_amt_nonneg {c ss dt t : ℝ} (hdt : 0 ≤ dt) (ht : 0 ≤ t)
    {p : Portion} (hp : PortionInv c t p) : 0 ≤ (portionUpdate c ss dt t p).2 := by
  obtain ⟨hsp, _, hset⟩ := hp
  by_cases hcrit : p.strain ≥ c
  · by_cases hst : p.start_time < 0
    · rw [portionUpdate_of_crit_unset hcrit hst]
      dsimp only
      apply mul_nonneg _ (le_of_lt hsp)
      rw [avrami_increment, sub_nonneg, zero_add, avrami_zero]
      exact avrami_nonneg dt
    · obtain ⟨hle, _, _⟩ := hset (not_lt.mp hst)
      rw [portionUpdate_of_crit_set hcrit hst]
      dsimp only
      apply mul_nonneg _ (le_of_lt hsp)
      rw [avrami_increment, sub_nonneg]
      exact avrami_le_avrami (by linarith) (by linarith)
  · rw [portionUpdate_of_not_crit hcrit]

theorem solveStep_preserves_inv {c ss dt : ℝ} (hss : 0 ≤ ss) (hdt : 0 ≤ dt)
    {s : SolveState} (h : StateInv c s) : StateInv c (solveStep c ss dt s) := by
  obtain ⟨ht, hps⟩ := h
  refine ⟨by rw [solveStep_t]; linarith, ?_⟩
  intro p hp
  rw [solveStep_portions] at hp
  rw [solveStep_t]
  have hmap : ∀ q ∈ updatedPortions c ss dt s.t s.portions, PortionInv c (s.t + dt) q := by
    intro q hq
    obtain ⟨p0, hp0, rfl⟩ := List.mem_map.mp hq
    exact portionUpdate_preserves_inv hss hdt ht (hps p0 hp0)
  by_cases hnew : 0 < newPortionAmount c ss dt s.t s.portions
  · rw [if_pos hnew] at hp
    rcases List.mem_append.mp hp with hin | hin
    · exact hmap p hin
    · have : p = Portion.create (newPortionAmount c ss dt s.t s.portions) := by
        simpa using hin
      subst this
      refine ⟨hnew, fun _ => rfl, ?_⟩
      intro habs
      have hm1 : (Portion.create (newPortionAmount c ss dt s.t s.portions)).start_time
          = -1 := rfl
      rw [hm1] at habs
      linarith
  · rw [if_neg hnew] at hp
    exact hmap p hp

/-- Sum of differences over a list. -/
theorem list_sum_map_sub {α : Type} (l : List α) (f g : α → ℝ) :
    (l.map fun x => f x - g x).sum = (l.map f).sum - (l.map g).sum := by
  induction l with
  | nil => simp
  | cons a l ih =>
    simp only [List.map_cons, List.sum_cons, ih]
    ring

theorem portionUpdate_fst_portion (c ss dt t : ℝ) (p : Portion) :
    (portionUpdate c ss dt t p).1.portion = p.portion - (portionUpdate c ss dt t p).2 := by
  rw [portionUpdate]
  split <;> simp

/-- The portion updates lose exactly the step-local `new_portion`. -/
theorem updatedPortions_volume (c ss dt t : ℝ) (ps : List Portion) :
    ((updatedPortions c ss dt t ps).map Portion.portion).sum
      = (ps.map Portion.portion).sum - newPortionAmount c ss dt t ps := by
  rw [updatedPortions, newPortionAmount, List.map_map]
  have hcomp : (Portion.portion ∘ fun p => (portionUpdate c ss dt t p).1)
      = fun p => p.portion - (portionUpdate c ss dt t p).2 := by
    funext p
    exact portionUpdate_fst_portion c ss dt t p
  rw [hcomp, list_sum_map_sub]

theorem newPortionAmount_nonneg {c ss dt : ℝ} (hdt : 0 ≤ dt) {s : SolveState}
    (h : StateInv c s) : 0 ≤ newPortionAmount c ss dt s.t s.portions := by
  rw [newPortionAmount]
  apply List.sum_nonneg
  intro x hx
  obtain ⟨p, hp, rfl⟩ := List.mem_map.mp hx
  exact portionUpdate_amt_nonneg hdt h.1 (h.2 p hp)

/-- One step conserves the total volume share exactly. -/
theorem solveStep_volumeSum {c ss dt : ℝ} (hdt : 0 ≤ dt) {s : SolveState}
    (h : StateInv c s) : volumeSum (solveStep c ss dt s) = volumeSum s := by
  rw [volumeSum, volumeSum, solveStep_portions]
  by_cases hnew : 0 < newPortionAmount c ss dt s.t s.portions
  · rw [if_pos hnew, List.map_append, List.sum_append, updatedPortions_volume]
    have : ([Portion.create (newPortionAmount c ss dt s.t s.portions)].map
        Portion.portion).sum = newPortionAmount c ss dt s.t s.portions := by
      simp [Portion.create]
    rw [this]
    ring
  · rw [if_neg hnew, updatedPortions_volume]
    have hz : newPortionAmount c ss dt s.t s.portions = 0 :=
      le_antisymm (not_lt.mp hnew) (newPortionAmount_nonneg hdt h)
    rw [hz]
    ring

theorem stateInv_initState (c : ℝ) : StateInv c initState := by
  refine ⟨le_refl 0, ?_⟩
  intro p hp
  have : p = Portion.create 1 := by simpa [initState] using hp
  subst this
  refine ⟨one_pos, fun _ => rfl, ?_⟩
  intro habs
  have h1 : (Portion.create 1).start_time = -1 := rfl
  rw [h1] at habs
  linarith

theorem stateInv_stepsN (c ss dt : ℝ) (hss : 0 ≤ ss) (hdt : 0 ≤ dt) (k : ℕ) :
    StateInv c (stepsN c ss dt k) := by
  induction k with
  | zero => exact stateInv_initState c
  | succ k ih =>
    rw [stepsN_succ]
    exact solveStep_preserves_inv hss hdt ih

theorem volumeSum_stepsN (c ss dt : ℝ) (hss : 0 ≤ ss) (hdt : 0 ≤ dt) (k : ℕ) :
    volumeSum (stepsN c ss dt k) = 1 := by
  induction k with
  | zero => simp [stepsN, initState, volumeSum, Portion.create]
  | succ k ih =>
    rw [stepsN_succ, solveStep_volumeSum hdt (stateInv_stepsN c ss dt hss hdt k), ih]

/-- The while loop preserves any property the loop body preserves. -/
theorem solveLoop_preserves (c ss smax dt : ℝ) (P : SolveState → Prop)
    (hstep : ∀ s, P s → P (solveStep c ss dt s)) :
    ∀ (f : ℕ) (s : SolveState), P s → P (solveLoop c ss smax dt f s) := by
  intro f
  induction f with
  | zero => intro s h; exact h
  | succ f ih =>
    intro s h
    rw [solveLoop]
    split
    · exact ih _ (hstep s h)
    · exact h

/-! ### C1: volume conservation -/

/-- **C1.** In every run of the Driver with positive `strain_step`,
`strain_max` and `rate`, the sum of `Portion.portion` (the volume shares)
over all portions is exactly 1 — after any number of loop iterations (any
fuel) and after any number `k` of executed loop-body steps — and hence is
1 within the claimed `1e-9` tolerance. -/
theorem volume_conservation (c ss smax rate : ℝ)
    (hss : 0 < ss) (hsm : 0 < smax) (hrate : 0 < rate) :
    (∀ fuel, volumeSum (luton_sellars_solve c ss smax rate fuel) = 1)
      ∧ (∀ k, volumeSum (stepsN c ss (ss / rate) k) = 1)
      ∧ (∀ fuel, |volumeSum (luton_sellars_solve c ss smax rate fuel) - 1| ≤ 1e-9) := by
  have hdt : 0 ≤ ss / rate := le_of_lt (div_pos hss hrate)
  have hloop : ∀ fuel, volumeSum (luton_sellars_solve c ss smax rate fuel) = 1 := by
    intro fuel
    have h := solveLoop_preserves c ss smax (ss / rate)
      (fun s => StateInv c s ∧ volumeSum s = 1)
      (fun s hs => ⟨solveStep_preserves_inv (le_of_lt hss) hdt hs.1,
        by rw [solveStep_volumeSum hdt hs.1, hs.2]⟩)
      fuel initState
      ⟨stateInv_initState c, by simp [initState, volumeSum, Portion.create]⟩
    exact h.2
  refine ⟨hloop, ?_, ?_⟩
  · intro k
    exact volumeSum_stepsN c ss (ss / rate) (le_of_lt hss) hdt k
  · intro fuel
    rw [hloop fuel]
    norm_num

/-- Witness for C1 at `strain_critical = 0.5`, `strain_step = 0.02`,
`strain_max = 4`, `rate = 0.5`. -/
theorem volume_conservation_witness :
    (∀ fuel, volumeSum (luton_sellars_solve strain_critical strain_step
        strain_max (0.5) fuel) = 1)
      ∧ (∀ k, volumeSum (stepsN strain_critical strain_step
          (strain_step / 0.5) k) = 1)
      ∧ (∀ fuel, |volumeSum (luton_sellars_solve strain_critical strain_step
          strain_max (0.5) fuel) - 1| ≤ 1e-9) :=
  volume_conservation strain_critical strain_step strain_max 0.5
    (by norm_num [strain_step]) (by norm_num [strain_max]) (by norm_num)

/-! ### Per-portion dynamics across steps -/

theorem portionUpdate_fst_strain (c ss dt t : ℝ) (p : Portion) :
    (portionUpdate c ss dt t p).1.strain = p.strain + ss := by
  by_cases hcrit : p.strain ≥ c
  · by_cases hst : p.start_time < 0
    · rw [portionUpdate_of_crit_unset hcrit hst]
    · rw [portionUpdate_of_crit_set hcrit hst]
  · rw [portionUpdate_of_not_crit hcrit]

theorem portionUpdate_fst_start_time (c ss dt t : ℝ) (p : Portion) :
    (portionUpdate c ss dt t p).1.start_time
      = if p.strain ≥ c ∧ p.start_time < 0 then t else p.start_time := by
  by_cases hcrit : p.strain ≥ c
  · by_cases hst : p.start_time < 0
    · rw [portionUpdate_of_crit_unset hcrit hst, if_pos ⟨hcrit, hst⟩]
    · rw [portionUpdate_of_crit_set hcrit hst, if_neg (fun h => hst h.2)]
  · rw [portionUpdate_of_not_crit hcrit, if_neg (fun h => hcrit h.1)]

theorem pget_mem {s : SolveState} {i : ℕ} (hi : i < s.portions.length) :
    pget s i ∈ s.portions := by
  rw [pget, List.getD_eq_getElem _ _ hi]
  exact List.getElem_mem hi

theorem countAt_mono (c ss dt : ℝ) {k m : ℕ} (h : k ≤ m) :
    countAt c ss dt k ≤ countAt c ss dt m :=
  stepsN_nPortions_mono c ss dt h

theorem countAt_succ_le (c ss dt : ℝ) (k : ℕ) :
    countAt c ss dt (k + 1) ≤ countAt c ss dt k + 1 := by
  rw [countAt, countAt, stepsN_succ, solveStep_portions]
  split <;> simp [updatedPortions]

theorem pget_succ (c ss dt : ℝ) {k i : ℕ} (hi : i < countAt c ss dt k) :
    pget (stepsN c ss dt (k + 1)) i
      = (portionUpdate c ss dt (stepsN c ss dt k).t (pget (stepsN c ss dt k) i)).1 := by
  rw [stepsN_succ]
  exact solveStep_pget c ss dt _ i hi

theorem strainAt_succ (c ss dt : ℝ) {k i : ℕ} (hi : i < countAt c ss dt k) :
    strainAt c ss dt (k + 1) i = strainAt c ss dt k i + ss := by
  rw [strainAt, strainAt, pget_succ c ss dt hi, portionUpdate_fst_strain]

theorem strainAt_closed (c ss dt : ℝ) {k i : ℕ} (hi : i < countAt c ss dt k) :
    ∀ m, k ≤ m →
      strainAt c ss dt m i = strainAt c ss dt k i + ((m - k : ℕ) : ℝ) * ss := by
  intro m hm
  induction m, hm using Nat.le_induction with
  | base => simp
  | succ m hm ih =>
    rw [strainAt_succ c ss dt (lt_of_lt_of_le hi (countAt_mono c ss dt hm)), ih]
    have harith : (m + 1 - k : ℕ) = (m - k) + 1 := by omega
    rw [harith]
    push_cast
    ring

/-- When the portion count grows across step `k+1`, the appended portion
(at index `countAt k`) has zero strain at the end of that step. -/
theorem new_portion_strain_zero (c ss dt : ℝ) (k : ℕ)
    (h : countAt c ss dt k < countAt c ss dt (k + 1)) :
    strainAt c ss dt (k + 1) (countAt c ss dt k) = 0 := by
  by_cases hnew :
      0 < newPortionAmount c ss dt (stepsN c ss dt k).t (stepsN c ss dt k).portions
  · have hport : (stepsN c ss dt (k + 1)).portions
        = updatedPortions c ss dt (stepsN c ss dt k).t (stepsN c ss dt k).portions
          ++ [Portion.create (newPortionAmount c ss dt (stepsN c ss dt k).t
                (stepsN c ss dt k).portions)] := by
      rw [stepsN_succ, solveStep_portions, if_pos hnew]
    have hlen : (updatedPortions c ss dt (stepsN c ss dt k).t
        (stepsN c ss dt k).portions).length = countAt c ss dt k :=
      updatedPortions_length ..
    rw [strainAt, pget, hport, ← hlen,
      List.getD_append_right _ _ _ _ (le_refl _), Nat.sub_self]
    rfl
  · exfalso
    have heq : countAt c ss dt (k + 1) = countAt c ss dt k := by
      rw [countAt, countAt, stepsN_succ, solveStep_portions, if_neg hnew,
        updatedPortions_length]
    omega

/-! ### C5: onset-time immutability -/

/-- **C5.** In every run with `strain_step > 0` and `rate > 0`, for every
portion `i` present after `k` steps: once `onset_time` (the `start_time`
field) is set (≥ 0) a step never changes it; while the portion's strain is
below the critical strain a step never changes it (it stays the `-1`
sentinel set at creation); in the first step that finds the portion
critical with the sentinel still in place, it is set (exactly once) to the
Driver's current elapsed time; and whenever it is set it is at most the
current elapsed time, so `elapsed_time - onset_time ≥ 0` from then on. -/
theorem onset_time_immutability (c ss rate : ℝ) (hss : 0 < ss) (hrate : 0 < rate) :
    ∀ k i, i < countAt c ss (ss / rate) k →
      (0 ≤ onsetAt c ss (ss / rate) k i →
          onsetAt c ss (ss / rate) (k + 1) i = onsetAt c ss (ss / rate) k i)
      ∧ (strainAt c ss (ss / rate) k i < c →
          onsetAt c ss (ss / rate) (k + 1) i = onsetAt c ss (ss / rate) k i)
      ∧ (onsetAt c ss (ss / rate) k i < 0 → c ≤ strainAt c ss (ss / rate) k i →
          onsetAt c ss (ss / rate) (k + 1) i = timeAt c ss (ss / rate) k)
      ∧ (0 ≤ onsetAt c ss (ss / rate) k i →
          onsetAt c ss (ss / rate) k i ≤ timeAt c ss (ss / rate) k) := by
  intro k i hi
  have hupd : onsetAt c ss (ss / rate) (k + 1) i
      = if (pget (stepsN c ss (ss / rate) k) i).strain ≥ c
            ∧ (pget (stepsN c ss (ss / rate) k) i).start_time < 0
        then (stepsN c ss (ss / rate) k).t
        else (pget (stepsN c ss (ss / rate) k) i).start_time := by
    rw [onsetAt, pget_succ c ss (ss / rate) hi, portionUpdate_fst_start_time]
  refine ⟨?_, ?_, ?_, ?_⟩
  · intro h0
    rw [hupd, if_neg]
    · rfl
    · rintro ⟨_, hneg⟩
      exact absurd h0 (not_le.mpr hneg)
  · intro hs
    rw [hupd, if_neg]
    · rfl
    · rintro ⟨hcrit, _⟩
      exact absurd hcrit (not_le.mpr hs)
  · intro hneg hcrit
    rw [hupd, if_pos ⟨hcrit, hneg⟩]
    rfl
  · intro h0
    have hinv := stateInv_stepsN c ss (ss / rate) (le_of_lt hss)
      (le_of_lt (div_pos hss hrate)) k
    have hp := hinv.2 (pget (stepsN c ss (ss / rate) k) i) (pget_mem hi)
    exact (hp.2.2 h0).1

/-- Witness for C5 at the notebook's parameters, step 0, portion 0. -/
theorem onset_time_immutability_witness :
    (0 ≤ onsetAt strain_critical strain_step (strain_step / 0.5) 0 0 →
        onsetAt strain_critical strain_step (strain_step / 0.5) (0 + 1) 0
          = onsetAt strain_critical strain_step (strain_step / 0.5) 0 0)
      ∧ (strainAt strain_critical strain_step (strain_step / 0.5) 0 0 < strain_critical →
          onsetAt strain_critical strain_step (strain_step / 0.5) (0 + 1) 0
            = onsetAt strain_critical strain_step (strain_step / 0.5) 0 0)
      ∧ (onsetAt strain_critical strain_step (strain_step / 0.5) 0 0 < 0 →
          strain_critical ≤ strainAt strain_critical strain_step (strain_step / 0.5) 0 0 →
          onsetAt strain_critical strain_step (strain_step / 0.5) (0 + 1) 0
            = timeAt strain_critical strain_step (strain_step / 0.5) 0)
      ∧ (0 ≤ onsetAt strain_critical strain_step (strain_step / 0.5) 0 0 →
          onsetAt strain_critical strain_step (strain_step / 0.5) 0 0
            ≤ timeAt strain_critical strain_step (strain_step / 0.5) 0) :=
  onset_time_immutability strain_critical strain_step 0.5
    (by norm_num [strain_step]) (by norm_num) 0 0
    (by norm_num [countAt, stepsN, initState])

/-! ### C6: monotonic strain and creation-step ordering -/

/-- **C6.** In every run with `strain_step > 0` and `rate > 0`: every
portion present after `k` steps gains exactly `strain_step` in the next
step (so its strain is non-decreasing), and after `m ≥ k` steps its strain
is its strain at `k` plus `(m - k) * strain_step`; a portion appended
during step `k+1` has zero strain at the end of that step (it accrues no
strain in the step that creates it); hence a portion first present after
step `k+1` has strain `(m - (k+1)) * strain_step` at the end of any later
step `m`. -/
theorem monotonic_strain_increments (c ss rate : ℝ) (hss : 0 < ss) (hrate : 0 < rate) :
    ∀ k i, i < countAt c ss (ss / rate) k →
      (strainAt c ss (ss / rate) (k + 1) i = strainAt c ss (ss / rate) k i + ss)
      ∧ (∀ m, k ≤ m → strainAt c ss (ss / rate) m i
            = strainAt c ss (ss / rate) k i + ((m - k : ℕ) : ℝ) * ss)
      ∧ (countAt c ss (ss / rate) k < countAt c ss (ss / rate) (k + 1) →
          strainAt c ss (ss / rate) (k + 1) (countAt c ss (ss / rate) k) = 0)
      ∧ (∀ j m, countAt c ss (ss / rate) k ≤ j → j < countAt c ss (ss / rate) (k + 1) →
          k + 1 ≤ m →
          strainAt c ss (ss / rate) m j = ((m - (k + 1) : ℕ) : ℝ) * ss) := by
  intro k i hi
  refine ⟨strainAt_succ c ss (ss / rate) hi, strainAt_closed c ss (ss / rate) hi, ?_, ?_⟩
  · exact new_portion_strain_zero c ss (ss / rate) k
  · intro j m hj1 hj2 hm
    have hgrow : countAt c ss (ss / rate) k < countAt c ss (ss / rate) (k + 1) :=
      lt_of_le_of_lt hj1 hj2
    have hle := countAt_succ_le c ss (ss / rate) k
    have hj : j = countAt c ss (ss / rate) k := by omega
    subst hj
    have h0 := new_portion_strain_zero c ss (ss / rate) k hgrow
    have hcf := strainAt_closed c ss (ss / rate) hj2 m hm
    rw [h0, zero_add] at hcf
    exact hcf

/-- Witness for C6 at the notebook's parameters, step 0, portion 0. -/
theorem monotonic_strain_increments_witness :
    (strainAt strain_critical strain_step (strain_step / 0.5) (0 + 1) 0
        = strainAt strain_critical strain_step (strain_step / 0.5) 0 0 + strain_step)
      ∧ (∀ m, 0 ≤ m → strainAt strain_critical strain_step (strain_step / 0.5) m 0
            = strainAt strain_critical strain_step (strain_step / 0.5) 0 0
              + ((m - 0 : ℕ) : ℝ) * strain_step)
      ∧ (countAt strain_critical strain_step (strain_step / 0.5) 0
            < countAt strain_critical strain_step (strain_step / 0.5) (0 + 1) →
          strainAt strain_critical strain_step (strain_step / 0.5) (0 + 1)
            (countAt strain_critical strain_step (strain_step / 0.5) 0) = 0)
      ∧ (∀ j m, countAt strain_critical strain_step (strain_step / 0.5) 0 ≤ j →
          j < countAt strain_critical strain_step (strain_step / 0.5) (0 + 1) →
          0 + 1 ≤ m →
          strainAt strain_critical strain_step (strain_step / 0.5) m j
            = ((m - (0 + 1) : ℕ) : ℝ) * strain_step) :=
  monotonic_strain_increments strain_critical strain_step 0.5
    (by norm_num [strain_step]) (by norm_num) 0 0
    (by norm_num [countAt, stepsN, initState])

/-! ### C8: rate ordering -/

/-- The reach time of a run in closed form: the strain column of row `j`
is `(j+1) * strain_step` independently of the rate, and the time column is
`(j+1) * (strain_step / rate)`. -/
theorem reachTime_closed_form (c ss smax rate : ℝ) (hss : 0 < ss) (fuel : ℕ)
    (hf : numSteps ss smax ≤ fuel) (v : ℝ) :
    reachTime (luton_sellars_solve c ss smax rate fuel).results v
      = ((List.range (numSteps ss smax)).find?
            fun j => decide (v ≤ ((j + 1 : ℕ) : ℝ) * ss)).map
          fun j => ((j + 1 : ℕ) : ℝ) * (ss / rate) := by
  rw [reachTime, solveLoop_eq_stepsN c ss smax rate hss fuel hf, stepsN_results,
    List.find?_map, Option.map_map]
  rfl

/-- **C8.** For two rates `0 < r1 < r2` and identical other parameters,
whenever both runs reach a given accumulated-strain value `v` (their
`reachTime` is defined), the `r1` run reaches it at a strictly later
elapsed time than the `r2` run. -/
theorem rate_ordering (c ss smax r1 r2 : ℝ)
    (hss : 0 < ss) (hsm : 0 < smax) (hr1 : 0 < r1) (hr12 : r1 < r2)
    (fuel : ℕ) (hf : numSteps ss smax ≤ fuel) (v t1 t2 : ℝ)
    (h1 : reachTime (luton_sellars_solve c ss smax r1 fuel).results v = some t1)
    (h2 : reachTime (luton_sellars_solve c ss smax r2 fuel).results v = some t2) :
    t2 < t1 := by
  rw [reachTime_closed_form c ss smax r1 hss fuel hf v] at h1
  rw [reachTime_closed_form c ss smax r2 hss fuel hf v] at h2
  obtain ⟨j1, hj1, ht1⟩ := Option.map_eq_some'.mp h1
  obtain ⟨j2, hj2, ht2⟩ := Option.map_eq_some'.mp h2
  have hj : j1 = j2 := Option.some.inj (hj1.symm.trans hj2)
  subst hj
  rw [← ht1, ← ht2, ← mul_div_assoc, ← mul_div_assoc]
  have hpos : (0 : ℝ) < ((j1 + 1 : ℕ) : ℝ) * ss := by positivity
  exact div_lt_div_of_pos_left hpos hr1 hr12

/-- Witness for C8: `strain_step = 1`, `strain_max = 1`, rates 1 and 2,
target strain 1; the rate-1 run reaches it at time 1, the rate-2 run at
time 1/2, and `1/2 < 1`. -/
theorem rate_ordering_witness :
    reachTime (luton_sellars_solve 1 1 1 1 1).results 1 = some 1
      ∧ reachTime (luton_sellars_solve 1 1 1 2 1).results 1 = some (1 / 2)
      ∧ (1 / 2 : ℝ) < 1 := by
  have hn : numSteps (1 : ℝ) 1 = 1 := by norm_num [numSteps]
  have hfind : ((List.range (numSteps (1 : ℝ) 1)).find?
      fun j => decide ((1 : ℝ) ≤ ((j + 1 : ℕ) : ℝ) * 1)) = some 0 := by
    rw [hn, show List.range 1 = [0] from rfl, List.find?_cons_of_pos]
    simp
  have h1 : reachTime (luton_sellars_solve 1 1 1 1 1).results 1 = some 1 := by
    rw [reachTime_closed_form 1 1 1 1 (by norm_num) 1 (by rw [hn]) 1, hfind]
    norm_num
  have h2 : reachTime (luton_sellars_solve 1 1 1 2 1).results 1 = some (1 / 2) := by
    rw [reachTime_closed_form 1 1 1 2 (by norm_num) 1 (by rw [hn]) 1, hfind]
    norm_num
  exact ⟨h1, h2, rate_ordering 1 1 1 1 2 (by norm_num) (by norm_num) (by norm_num)
    (by norm_num) 1 (by rw [hn]) 1 1 (1 / 2) h1 h2⟩

/-! ### Lemmas for the concrete scenario -/

/-- A step on a state with exactly one sub-critical portion just advances
that portion's strain: no transformation, no appended portion. -/
theorem solveStep_single_subcritical {c ss dt : ℝ} {s : SolveState} {p : Portion}
    (hport : s.portions = [p]) (hsub : ¬ p.strain ≥ c) :
    (solveStep c ss dt s).portions
      = [⟨p.start_time, p.portion, p.start_portion, p.strain + ss⟩] := by
  have hupd : updatedPortions c ss dt s.t s.portions
      = [⟨p.start_time, p.portion, p.start_portion, p.strain + ss⟩] := by
    rw [hport, updatedPortions, List.map_cons, List.map_nil,
      portionUpdate_of_not_crit hsub]
  have hnew : newPortionAmount c ss dt s.t s.portions = 0 := by
    rw [hport, newPortionAmount, List.map_cons, List.map_nil,
      portionUpdate_of_not_crit hsub]
    simp
  rw [solveStep_portions, hnew, hupd]
  simp

/-- Through step 25 of the notebook scenario the run still has the single
initial portion, with strain `k * strain_step` and the sentinel start
time. -/
theorem scenario_early_portions : ∀ k, k ≤ 25 →
    (stepsN strain_critical strain_step (strain_step / 0.5) k).portions
      = [⟨-1, 1, 1, (k : ℝ) * strain_step⟩] := by
  intro k
  induction k with
  | zero =>
    intro _
    show [Portion.create 1] = _
    norm_num [Portion.create]
  | succ k ih =>
    intro hk
    have hprev := ih (by omega)
    rw [stepsN_succ, solveStep_single_subcritical hprev ?_]
    · have : (k : ℝ) * strain_step + strain_step = ((k + 1 : ℕ) : ℝ) * strain_step := by
        push_cast
        ring
      rw [this]
    · have hk24 : (k : ℝ) ≤ 24 := by exact_mod_cast Nat.le_of_lt_succ (by omega)
      show ¬ ((⟨-1, 1, 1, (k : ℝ) * strain_step⟩ : Portion).strain ≥ strain_critical)
      rw [show (⟨-1, 1, 1, (k : ℝ) * strain_step⟩ : Portion).strain
        = (k : ℝ) * strain_step from rfl]
      rw [strain_critical, strain_step]
      intro habs
      nlinarith

/-- The initial portion's strain after `m` steps is `m * strain_step`. -/
theorem strainAt_zero_portion (c ss dt : ℝ) (m : ℕ) :
    strainAt c ss dt m 0 = (m : ℝ) * ss := by
  have h := strainAt_closed c ss dt (k := 0) (i := 0)
    (by rw [countAt]; norm_num [stepsN, initState]) m (Nat.zero_le m)
  have h0 : strainAt c ss dt 0 0 = 0 := rfl
  rw [h, h0, zero_add, Nat.sub_zero]

/-- Under the portion invariant, every portion's current share is strictly
positive (the Avrami fraction never reaches 1). -/
theorem portion_pos_of_inv {c t : ℝ} {p : Portion} (hp : PortionInv c t p) :
    0 < p.portion := by
  obtain ⟨hsp, hunset, hset⟩ := hp
  by_cases hst : p.start_time < 0
  · rw [hunset hst]
    exact hsp
  · obtain ⟨_, _, hval⟩ := hset (not_lt.mp hst)
    rw [hval]
    have := avrami_lt_one (t - p.start_time)
    nlinarith

/-- After `k` steps every portion's strain lies in `[0, k * strain_step]`. -/
theorem strain_bounds_stepsN (c ss dt : ℝ) (hss : 0 ≤ ss) (k : ℕ) :
    ∀ p ∈ (stepsN c ss dt k).portions, 0 ≤ p.strain ∧ p.strain ≤ (k : ℝ) * ss := by
  induction k with
  | zero =>
    intro p hp
    have hp1 : p = Portion.create 1 := by simpa [stepsN, initState] using hp
    subst hp1
    norm_num [Portion.create]
  | succ k ih =>
    intro p hp
    rw [stepsN_succ, solveStep_portions] at hp
    have hcast : ((k + 1 : ℕ) : ℝ) * ss = (k : ℝ) * ss + ss := by
      push_cast
      ring
    have hmem : ∀ q ∈ updatedPortions c ss dt (stepsN c ss dt k).t
        (stepsN c ss dt k).portions, 0 ≤ q.strain ∧ q.strain ≤ ((k + 1 : ℕ) : ℝ) * ss := by
      intro q hq
      obtain ⟨p0, hp0, rfl⟩ := List.mem_map.mp hq
      have hb := ih p0 hp0
      rw [portionUpdate_fst_strain, hcast]
      constructor
      · linarith [hb.1]
      · linarith [hb.2]
    split at hp
    · rcases List.mem_append.mp hp with h | h
      · exact hmem p h
      · have hp1 : p = Portion.create (newPortionAmount c ss dt (stepsN c ss dt k).t
            (stepsN c ss dt k).portions) := by simpa using h
        subst hp1
        refine ⟨le_refl 0, ?_⟩
        rw [show (Portion.create (newPortionAmount c ss dt (stepsN c ss dt k).t
          (stepsN c ss dt k).portions)).strain = 0 from rfl]
        positivity
    · exact hmem p hp

theorem exists_two_cons {α : Type} {l : List α} (h : 2 ≤ l.length) :
    ∃ a b t, l = a :: b :: t := by
  cases l with
  | nil => simp at h
  | cons a l1 =>
    cases l1 with
    | nil => simp at h
    | cons b t => exact ⟨a, b, t, rfl⟩

/-- The flow-stress aggregate of a list of portions with nonnegative
shares and strains bounded by `M` is at most the total share times
`ludwik M`. -/
theorem stress_sum_le (M : ℝ) : ∀ (l : List Portion),
    (∀ p ∈ l, 0 ≤ p.portion ∧ 0 ≤ p.strain ∧ p.strain ≤ M) →
    (l.map fun p => p.portion * p.flow_stress).sum
      ≤ (l.map Portion.portion).sum * ludwik M := by
  intro l
  induction l with
  | nil => simp
  | cons a l ih =>
    intro h
    simp only [List.map_cons, List.sum_cons]
    have ha := h a (List.mem_cons_self a l)
    have hterm : a.portion * a.flow_stress ≤ a.portion * ludwik M := by
      apply mul_le_mul_of_nonneg_left _ ha.1
      exact ludwik_le_ludwik ha.2.1 ha.2.2
    have hrest := ih fun p hp => h p (List.mem_cons_of_mem a hp)
    rw [add_mul]
    linarith

/-- The flow-stress aggregate of a nonempty list of positive-share,
nonnegative-strain portions is positive. -/
theorem aggregate_pos {ps : List Portion} (hne : ps ≠ [])
    (hpos : ∀ p ∈ ps, 0 < p.portion) (hstr : ∀ p ∈ ps, 0 ≤ p.strain) :
    0 < aggregateFlowStress ps := by
  cases ps with
  | nil => exact absurd rfl hne
  | cons a l =>
    rw [aggregateFlowStress, List.map_cons, List.sum_cons]
    have ha : 0 < a.portion * a.flow_stress :=
      mul_pos (hpos a (List.mem_cons_self a l))
        (ludwik_pos (hstr a (List.mem_cons_self a l)))
    have hl : 0 ≤ (l.map fun p => p.portion * p.flow_stress).sum := by
      apply List.sum_nonneg
      intro x hx
      obtain ⟨p, hp, rfl⟩ := List.mem_map.mp hx
      exact le_of_lt (mul_pos (hpos p (List.mem_cons_of_mem a hp))
        (ludwik_pos (hstr p (List.mem_cons_of_mem a hp))))
    linarith

theorem scenario_count25 :
    countAt strain_critical strain_step (strain_step / 0.5) 25 = 1 := by
  rw [countAt, scenario_early_portions 25 (le_refl 25)]
  rfl

/-- In step 26 the initial portion is critical for the first time and
recrystallizes a positive amount. -/
theorem scenario_newP_pos :
    0 < newPortionAmount strain_critical strain_step (strain_step / 0.5)
        (stepsN strain_critical strain_step (strain_step / 0.5) 25).t
        (stepsN strain_critical strain_step (strain_step / 0.5) 25).portions := by
  rw [scenario_early_portions 25 (le_refl 25), newPortionAmount, List.map_cons, List.map_nil]
  have hcrit : (⟨-1, 1, 1, ((25 : ℕ) : ℝ) * strain_step⟩ : Portion).strain
      ≥ strain_critical := by
    show strain_critical ≤ ((25 : ℕ) : ℝ) * strain_step
    rw [strain_critical, strain_step]
    norm_num
  have hst : (⟨-1, 1, 1, ((25 : ℕ) : ℝ) * strain_step⟩ : Portion).start_time < 0 := by
    show (-1 : ℝ) < 0
    norm_num
  rw [portionUpdate_of_crit_unset hcrit hst]
  have hinc : avrami_increment 0 (strain_step / 0.5) = avrami (strain_step / 0.5) := by
    rw [avrami_increment, zero_add, avrami_zero, sub_zero]
  have hpos : 0 < avrami (strain_step / 0.5) := by
    apply avrami_pos
    rw [strain_step]
    norm_num
  simp only [List.sum_cons, List.sum_nil, add_zero]
  rw [hinc]
  show 0 < avrami (strain_step / 0.5) * 1
  linarith

theorem scenario_count26 :
    countAt strain_critical strain_step (strain_step / 0.5) 26 = 2 := by
  rw [countAt, show (26 : ℕ) = 25 + 1 from rfl, stepsN_succ, solveStep_portions,
    if_pos scenario_newP_pos, List.length_append, updatedPortions_length,
    scenario_early_portions 25 (le_refl 25)]
  rfl

/-- The portion appended in step 26 has strain `174 * 0.02 = 3.48` at the
end of step 200. -/
theorem scenario_strain_portion1 :
    strainAt strain_critical strain_step (strain_step / 0.5) 200 1 = 3.48 := by
  have hgrow : countAt strain_critical strain_step (strain_step / 0.5) 25
      < countAt strain_critical strain_step (strain_step / 0.5) 26 := by
    rw [scenario_count25, scenario_count26]
    omega
  have h0 := new_portion_strain_zero strain_critical strain_step (strain_step / 0.5)
    25 hgrow
  rw [scenario_count25] at h0
  have h1 : (1 : ℕ) < countAt strain_critical strain_step (strain_step / 0.5) 26 := by
    rw [scenario_count26]
    omega
  have hcf := strainAt_closed strain_critical strain_step (strain_step / 0.5)
    (k := 26) (i := 1) h1 200 (by omega)
  rw [hcf, h0, zero_add, strain_step]
  norm_num

/-- Bounds on the final aggregate stress of the scenario run: positive and
strictly below the hardening stress of the maximal strain. -/
theorem scenario_aggregate_bounds :
    0 < aggregateFlowStress
        (stepsN strain_critical strain_step (strain_step / 0.5) 200).portions
      ∧ aggregateFlowStress
          (stepsN strain_critical strain_step (strain_step / 0.5) 200).portions
        < ludwik strain_max := by
  have hss0 : (0 : ℝ) ≤ strain_step := by rw [strain_step]; norm_num
  have hdt0 : (0 : ℝ) ≤ strain_step / 0.5 := by rw [strain_step]; norm_num
  have hinv := stateInv_stepsN strain_critical strain_step (strain_step / 0.5)
    hss0 hdt0 200
  have hpos : ∀ p ∈ (stepsN strain_critical strain_step (strain_step / 0.5)
      200).portions, 0 < p.portion :=
    fun p hp => portion_pos_of_inv (hinv.2 p hp)
  have hbnd := strain_bounds_stepsN strain_critical strain_step (strain_step / 0.5)
    hss0 200
  have hvol := volumeSum_stepsN strain_critical strain_step (strain_step / 0.5)
    hss0 hdt0 200
  have hM : ((200 : ℕ) : ℝ) * strain_step = strain_max := by
    rw [strain_step, strain_max]
    norm_num
  have hlen : 2 ≤ (stepsN strain_critical strain_step (strain_step / 0.5)
      200).portions.length := by
    have h26 := countAt_mono strain_critical strain_step (strain_step / 0.5)
      (show 26 ≤ 200 by omega)
    rw [scenario_count26] at h26
    exact h26
  obtain ⟨a, b, t, hdec⟩ := exists_two_cons hlen
  constructor
  · apply aggregate_pos (by rw [hdec]; exact List.cons_ne_nil a (b :: t)) hpos
    intro p hp
    exact (hbnd p hp).1
  · have hmem_a : a ∈ (stepsN strain_critical strain_step (strain_step / 0.5)
        200).portions := by rw [hdec]; exact List.mem_cons_self a (b :: t)
    have hmem_b : b ∈ (stepsN strain_critical strain_step (strain_step / 0.5)
        200).portions := by
      rw [hdec]
      exact List.mem_cons_of_mem a (List.mem_cons_self b t)
    have hbs : b.strain = 3.48 := by
      have := scenario_strain_portion1
      rw [strainAt, pget, hdec] at this
      exact this
    have hterm_a : a.portion * a.flow_stress ≤ a.portion * ludwik strain_max := by
      apply mul_le_mul_of_nonneg_left _ (le_of_lt (hpos a hmem_a))
      have hba := hbnd a hmem_a
      rw [hM] at hba
      exact ludwik_le_ludwik hba.1 hba.2
    have hterm_b : b.portion * b.flow_stress < b.portion * ludwik strain_max := by
      apply mul_lt_mul_of_pos_left _ (hpos b hmem_b)
      rw [Portion.flow_stress, hbs]
      apply ludwik_lt_ludwik (by norm_num)
      rw [strain_max]
      norm_num
    have hterm_t : (t.map fun p => p.portion * p.flow_stress).sum
        ≤ (t.map Portion.portion).sum * ludwik strain_max := by
      apply stress_sum_le
      intro p hp
      have hmem : p ∈ (stepsN strain_critical strain_step (strain_step / 0.5)
          200).portions := by
        rw [hdec]
        exact List.mem_cons_of_mem a (List.mem_cons_of_mem b hp)
      have hbp := hbnd p hmem
      rw [hM] at hbp
      exact ⟨le_of_lt (hpos p hmem), hbp.1, hbp.2⟩
    have hvol' : a.portion + (b.portion + (t.map Portion.portion).sum) = 1 := by
      rw [volumeSum, hdec] at hvol
      simpa using hvol
    have hsum := congrArg (fun x => x * ludwik strain_max) hvol'
    simp only [add_mul, one_mul] at hsum
    rw [aggregateFlowStress, hdec, List.map_cons, List.map_cons, List.sum_cons,
      List.sum_cons]
    linarith

/-! ### C9: the concrete notebook scenario -/

/-- **C9.** At the notebook's parameters
(`strain_critical = 0.5`, `strain_step = 0.02`, `strain_max = 4`,
Avrami `k = 0.2`, `n = 2`, Ludwik prefactor 100, exponent 0.2)
and `rate = 0.5`: the initial portion's strain reaches the critical
strain exactly at step 25 (it is still below at step 24); there is still
one portion after step 25 and a second portion exists after step 26; the
run's result has 200 samples, the final sample's stress is the aggregate
flow stress of the state after step 200, and that stress is strictly
between 0 and `ludwik strain_max` (the hardening stress at the maximal
strain). -/
theorem concrete_scenario :
    strainAt strain_critical strain_step (strain_step / 0.5) 25 0 = strain_critical
      ∧ strainAt strain_critical strain_step (strain_step / 0.5) 24 0 < strain_critical
      ∧ countAt strain_critical strain_step (strain_step / 0.5) 25 = 1
      ∧ countAt strain_critical strain_step (strain_step / 0.5) 26 = 2
      ∧ (luton_sellars_solve strain_critical strain_step strain_max 0.5
          200).results.length = 200
      ∧ ((luton_sellars_solve strain_critical strain_step strain_max 0.5
            200).results[199]?.map fun r => r.2.2)
          = some (aggregateFlowStress
              (stepsN strain_critical strain_step (strain_step / 0.5) 200).portions)
      ∧ 0 < aggregateFlowStress
          (stepsN strain_critical strain_step (strain_step / 0.5) 200).portions
      ∧ aggregateFlowStress
          (stepsN strain_critical strain_step (strain_step / 0.5) 200).portions
        < ludwik strain_max := by
  have hss : (0 : ℝ) < strain_step := by rw [strain_step]; norm_num
  have hrun := solveLoop_eq_stepsN strain_critical strain_step strain_max 0.5 hss
    200 (by rw [numSteps_concrete])
  refine ⟨?_, ?_, scenario_count25, scenario_count26, ?_, ?_,
    scenario_aggregate_bounds.1, scenario_aggregate_bounds.2⟩
  · rw [strainAt_zero_portion, strain_critical, strain_step]
    norm_num
  · rw [strainAt_zero_portion, strain_critical, strain_step]
    norm_num
  · rw [hrun, stepsN_results_length, numSteps_concrete]
  · rw [hrun, numSteps_concrete, stepsN_results, List.getElem?_map,
      List.getElem?_range (by omega)]
    rfl

/-! ### C4: the orchestrator does not isolate per-rate failures -/

/-- **C4 counterexample.**  Running the rate list `[1, 0]` at the
notebook's parameters, the `rate = 0` run fails (Python's
`ZeroDivisionError` in `strain_step / rate`) and the whole orchestration
returns that error: the sibling `rate = 1` run's result is not returned in
any partial result set, contradicting the claimed failure isolation. -/
theorem orchestrator_no_isolation_counterexample :
    runAllRates strain_critical strain_step strain_max 200 [1, 0]
      = Except.error "ZeroDivisionError" := by
  rw [runAllRates, luton_sellars_solveE, if_neg (by norm_num : (1 : ℝ) ≠ 0)]
  rw [runAllRates, luton_sellars_solveE, if_pos rfl]

/-- **C4 amended.**  The orchestrator applies the Driver to each rate in
order with no exception handling: when every rate's run succeeds it
returns all results, each rate paired with its run, and when the rate list
contains a failing rate (rate 0) after any prefix of succeeding rates, the
whole orchestration returns the error — no partial result set and no list
of failed rates is produced. -/
theorem orchestrator_propagates_failure (c ss smax : ℝ) (fuel : ℕ) :
    (∀ rs : List ℝ, (∀ r ∈ rs, r ≠ 0) →
        runAllRates c ss smax fuel rs
          = Except.ok (rs.map fun r => (r, luton_sellars_solve c ss smax r fuel)))
      ∧ (∀ rs1 rs2 : List ℝ, (∀ r ∈ rs1, r ≠ 0) →
          runAllRates c ss smax fuel (rs1 ++ 0 :: rs2)
            = Except.error "ZeroDivisionError") := by
  have hok : ∀ rs : List ℝ, (∀ r ∈ rs, r ≠ 0) →
      runAllRates c ss smax fuel rs
        = Except.ok (rs.map fun r => (r, luton_sellars_solve c ss smax r fuel)) := by
    intro rs
    induction rs with
    | nil => intro _; rfl
    | cons r rs ih =>
      intro h
      rw [runAllRates, luton_sellars_solveE,
        if_neg (h r (List.mem_cons_self r rs)),
        ih (fun x hx => h x (List.mem_cons_of_mem r hx))]
      rfl
  refine ⟨hok, ?_⟩
  intro rs1 rs2 h
  induction rs1 with
  | nil =>
    rw [List.nil_append, runAllRates, luton_sellars_solveE, if_pos rfl]
  | cons r rs ih =>
    rw [List.cons_append, runAllRates, luton_sellars_solveE,
      if_neg (h r (List.mem_cons_self r rs)),
      ih (fun x hx => h x (List.mem_cons_of_mem r hx))]

/-! ### C2: termination and output length -/

/-- **C2.** For every `strain_step > 0`, `strain_max > 0` and `rate > 0`,
the Driver's while loop terminates after exactly
`⌈strain_max / strain_step⌉` iterations — given at least that much fuel,
the run equals the `numSteps`-fold iterate of the loop body, the loop guard
is true at each of the first `numSteps` checks and false at the next (so
the guard is the only terminal condition) — and the returned `results`
sequence has exactly `numSteps` samples. -/
theorem luton_sellars_termination_output_length (c ss smax rate : ℝ)
    (hss : 0 < ss) (hsm : 0 < smax) (hr : 0 < rate) (fuel : ℕ)
    (hf : numSteps ss smax ≤ fuel) :
    luton_sellars_solve c ss smax rate fuel
        = stepsN c ss (ss / rate) (numSteps ss smax)
      ∧ (luton_sellars_solve c ss smax rate fuel).results.length = numSteps ss smax
      ∧ (∀ k, k < numSteps ss smax → (stepsN c ss (ss / rate) k).strain < smax)
      ∧ ¬ (stepsN c ss (ss / rate) (numSteps ss smax)).strain < smax := by
  have h1 := solveLoop_eq_stepsN c ss smax rate hss fuel hf
  refine ⟨h1, ?_, ?_, ?_⟩
  · rw [h1, stepsN_results_length]
  · intro k hk
    rw [stepsN_strain]
    exact strain_lt_of_lt_numSteps hss hk
  · rw [stepsN_strain]
    exact not_lt.mpr (numSteps_strain_ge hss hsm)

/-- Witness for C2 at `strain_critical = 0`, `strain_step = 1`,
`strain_max = 1`, `rate = 1`, `fuel = 1`. -/
theorem luton_sellars_termination_output_length_witness :
    luton_sellars_solve 0 1 1 1 1 = stepsN 0 1 (1 / 1) (numSteps 1 1)
      ∧ (luton_sellars_solve 0 1 1 1 1).results.length = numSteps 1 1
      ∧ (∀ k, k < numSteps 1 1 → (stepsN 0 1 (1 / 1) k).strain < 1)
      ∧ ¬ (stepsN 0 1 (1 / 1) (numSteps 1 1)).strain < 1 :=
  luton_sellars_termination_output_length 0 1 1 1 one_pos one_pos one_pos 1
    (by norm_num [numSteps])

/-! ### C10: every result row couples time and strain through the rate -/

/-- **C10.** For every run with positive parameters, the `k`-th result row
(0-indexed) has `t = (k+1) * (strain_step / rate)` and
`strain = (k+1) * strain_step`, hence `t * rate = strain` in every row. -/
theorem result_rows_couple_time_and_strain (c ss smax rate : ℝ)
    (hss : 0 < ss) (hsm : 0 < smax) (hr : 0 < rate) (fuel : ℕ)
    (hf : numSteps ss smax ≤ fuel) (k : ℕ) (hk : k < numSteps ss smax) :
    ((luton_sellars_solve c ss smax rate fuel).results[k]?.map
        fun r => (r.1, r.2.1))
        = some (((k + 1 : ℕ) : ℝ) * (ss / rate), ((k + 1 : ℕ) : ℝ) * ss)
      ∧ ((k + 1 : ℕ) : ℝ) * (ss / rate) * rate = ((k + 1 : ℕ) : ℝ) * ss := by
  constructor
  · rw [solveLoop_eq_stepsN c ss smax rate hss fuel hf, stepsN_results,
      List.getElem?_map, List.getElem?_range hk]
    simp
  · have hr0 : rate ≠ 0 := ne_of_gt hr
    field_simp

/-- Witness for C10 at `strain_critical = 0`, `strain_step = 1`,
`strain_max = 1`, `rate = 1`, `fuel = 1`, row `k = 0`. -/
theorem result_rows_couple_time_and_strain_witness :
    ((luton_sellars_solve 0 1 1 1 1).results[0]?.map fun r => (r.1, r.2.1))
        = some (((0 + 1 : ℕ) : ℝ) * (1 / 1), ((0 + 1 : ℕ) : ℝ) * 1)
      ∧ ((0 + 1 : ℕ) : ℝ) * (1 / 1) * 1 = ((0 + 1 : ℕ) : ℝ) * 1 :=
  result_rows_couple_time_and_strain 0 1 1 1 one_pos one_pos one_pos 1
    (by norm_num [numSteps]) 0 (by norm_num [numSteps])

/-! ### C3: there is no configuration-error check in the code -/

/-- **C3 counterexample.** The claim says every input with
`strain_rate ≤ 0` makes the Driver report a configuration error before the
loop, with no steps executed and no result samples produced.  At the
notebook's parameters with `rate = -1 ≤ 0` the code instead runs the full
loop and produces 200 result samples. -/
theorem no_config_error_check_counterexample :
    ((-1 : ℝ) ≤ 0)
      ∧ (luton_sellars_solve strain_critical strain_step strain_max (-1) 200).results.length
          = 200 := by
  refine ⟨by norm_num, ?_⟩
  rw [solveLoop_eq_stepsN strain_critical strain_step strain_max (-1)
      (by norm_num [strain_step]) 200 (by rw [numSteps_concrete]),
    stepsN_results_length, numSteps_concrete]

/-- **C3 amended.** The Driver performs no configuration validation of its
own; the only failure before the loop is Python's `ZeroDivisionError` at
`time_step = strain_step / rate` when `rate = 0` (modelled by
`luton_sellars_solveE`, since Lean's total real division has no error
path).  (i) At `rate = 0` that error is raised before the loop, whatever
the other parameters are.  For `rate ≠ 0` no configuration error is ever
reported: (ii) with `strain_max ≤ 0` the run returns the initial state —
an empty result, not an error; (iii) with `rate < 0` but positive
`strain_step` and `strain_max` the loop still executes and produces
`⌈strain_max/strain_step⌉` samples; (iv) with `strain_step ≤ 0` and
`strain_max > 0` the loop guard never turns false, so the Python loop
never terminates (the fuelled model consumes any amount of fuel without
reporting anything). -/
theorem no_configuration_validation (c ss smax rate : ℝ) :
    (∀ fuel, luton_sellars_solveE c ss smax 0 fuel
        = Except.error "ZeroDivisionError")
      ∧ (rate ≠ 0 → smax ≤ 0 → ∀ fuel,
          luton_sellars_solveE c ss smax rate fuel = Except.ok initState)
      ∧ (rate < 0 → 0 < ss → 0 < smax → ∀ fuel, numSteps ss smax ≤ fuel →
          ∃ s, luton_sellars_solveE c ss smax rate fuel = Except.ok s
            ∧ s.results.length = numSteps ss smax)
      ∧ (rate ≠ 0 → ss ≤ 0 → 0 < smax → ∀ fuel,
          luton_sellars_solveE c ss smax rate fuel
            = Except.ok (stepsN c ss (ss / rate) fuel)) := by
  refine ⟨?_, ?_, ?_, ?_⟩
  · intro fuel
    rw [luton_sellars_solveE, if_pos rfl]
  · intro hr h fuel
    rw [luton_sellars_solveE, if_neg hr]
    cases fuel with
    | zero => rfl
    | succ n =>
      have hcond : ¬ initState.strain < smax := by
        have h0 : initState.strain = 0 := rfl
        rw [h0]
        linarith
      rw [luton_sellars_solve, solveLoop, if_neg hcond]
  · intro hr hss hsm fuel hf
    refine ⟨luton_sellars_solve c ss smax rate fuel, ?_, ?_⟩
    · rw [luton_sellars_solveE, if_neg (ne_of_lt hr)]
    · rw [solveLoop_eq_stepsN c ss smax rate hss fuel hf, stepsN_results_length]
  · intro hr hss hsm fuel
    rw [luton_sellars_solveE, if_neg hr]
    have h := solveLoop_exhausts_fuel c ss smax (ss / rate) hss hsm fuel 0
    simp only [luton_sellars_solve]
    rw [show stepsN c ss (ss / rate) 0 = initState from rfl] at h
    rw [h]
    simp

end

end LutonSellars
